import Mathlib

/-!
Verification of the JupyterHub scope & role authorization engine and of the
metrics helpers.

The engine itself (scope grammar, custom-scope registry, scope expander,
resource-filter matcher, role resolver and the authorization façade) is
described by the specification but its implementation file is not part of the
source excerpt; only its configuration surface
(`examples/custom-scopes/jupyterhub_config.py`,
`examples/read-only/jupyterhub_config.py`) and a service consuming it
(`examples/custom-scopes/grades.py`) are.  Those engine components are
therefore modelled from the specification, faithfully to its words, and each
such definition is marked `Modelled from the spec:`.

The metrics helpers (`jupyterhub/metrics.py`: `ServerPollStatus.from_status`
and `_prometheus_log_scale`) are translated directly from the source.  Python
floats are modelled as exact rationals, with `float("inf")` as a separate
constructor.
-/

namespace JupyterHub

/-! ## Scope grammar (spec §4.1)

Scope strings are modelled as lists of characters (a Python `str`).  Parsing
splits on `'!'` and `':'`; serialization joins back.
-/

/-- Modelled from the spec: the recognized resource kinds of a filter,
`{user, server, group, service}` (§4.1); the scope-grammar and matcher code
is not in the source excerpt. -/
inductive ResourceKind
  | user
  | server
  | group
  | service
deriving DecidableEq, Repr

/-- Character strings, the representation of Python `str` for the grammar. -/
abbrev CStr := List Char

/-- Split a character list at every occurrence of `sep` (Python
`str.split(sep)`): always returns at least one part, and `n` separators give
`n+1` parts. -/
def splitOnChar (sep : Char) : CStr → List CStr
  | [] => [[]]
  | c :: cs =>
    match splitOnChar sep cs with
    | [] => [[]]
    | s :: rest => if c = sep then [] :: s :: rest else (c :: s) :: rest

/-- Join character lists with a single `sep` between consecutive parts
(Python `sep.join(parts)`). -/
def joinChar (sep : Char) : List CStr → CStr
  | [] => []
  | [s] => s
  | s :: rest => s ++ sep :: joinChar sep rest

/-- Modelled from the spec: the parsed form of a resource filter in a scope
string — `kind` alone (self-referential, `!server`) or `kind'='id`
(`!server=alice/lab`) (§4.1); the grammar code is not in the source
excerpt. -/
inductive CFilter
  | selfRef (kind : ResourceKind)
  | named (kind : ResourceKind) (id : CStr)
deriving DecidableEq, Repr

/-- Modelled from the spec: the structured form a scope string parses to —
a nonempty namespace path plus an optional resource filter (§3, §4.1). -/
structure ScopeStr where
  segments : List CStr
  filter : Option CFilter
deriving DecidableEq, Repr

/-- Modelled from the spec: parsing error for a malformed scope string
(`MalformedScopeError`, §4.1/§7). -/
inductive MalformedScopeError
  | malformed
deriving DecidableEq, Repr

/-- Recognize a filter kind name; anything outside
`{user, server, group, service}` is rejected (§4.1). -/
def kindOfC (s : CStr) : Option ResourceKind :=
  if s = "user".toList then some .user
  else if s = "server".toList then some .server
  else if s = "group".toList then some .group
  else if s = "service".toList then some .service
  else none

/-- Serialize a filter kind name. -/
def kindToC : ResourceKind → CStr
  | .user => "user".toList
  | .server => "server".toList
  | .group => "group".toList
  | .service => "service".toList

/-- The wildcard segment `*`. -/
def starSeg : CStr := ['*']

/-- Namespace-path validation (§4.1): at least one segment, no empty
segment (this also rejects the empty string), and the wildcard `*` only as
the final segment. -/
def segmentsOk (segs : List CStr) : Bool :=
  !segs.isEmpty && segs.all (fun s => !s.isEmpty) &&
    segs.dropLast.all (fun s => decide (s ≠ starSeg))

/-- Parse the filter part of a scope string (after the `'!'`):
`kind` or `kind'='id`. -/
def parseFilter (f : CStr) : Except MalformedScopeError CFilter :=
  match splitOnChar '=' f with
  | [k] =>
    match kindOfC k with
    | some kd => .ok (.selfRef kd)
    | none => .error .malformed
  | [k, i] =>
    match kindOfC k with
    | some kd => .ok (.named kd i)
    | none => .error .malformed
  | _ => .error .malformed

/-- Modelled from the spec: parse a scope string of the form
`segment(':'segment)*('!'filter)?` (§4.1); the grammar code is not in the
source excerpt.  Fails with `MalformedScopeError` on an empty string, an
empty segment, a wildcard in a non-final segment, or an unrecognized filter
kind. -/
def parseScope (s : CStr) : Except MalformedScopeError ScopeStr :=
  match splitOnChar '!' s with
  | [pathPart] =>
    let segs := splitOnChar ':' pathPart
    if segmentsOk segs then .ok ⟨segs, none⟩ else .error .malformed
  | [pathPart, filterPart] =>
    let segs := splitOnChar ':' pathPart
    if segmentsOk segs then
      (parseFilter filterPart).map (fun f => ⟨segs, some f⟩)
    else .error .malformed
  | _ => .error .malformed

/-- Serialize the filter back to its textual form. -/
def serializeFilter : CFilter → CStr
  | .selfRef k => kindToC k
  | .named k i => kindToC k ++ '=' :: i

/-- Modelled from the spec: serialization, the exact inverse of parsing
(§4.1, §8). -/
def serializeScope (sc : ScopeStr) : CStr :=
  joinChar ':' sc.segments ++
    match sc.filter with
    | none => []
    | some f => '!' :: serializeFilter f

theorem splitOnChar_ne_nil (sep : Char) (l : CStr) : splitOnChar sep l ≠ [] := by
  cases l with
  | nil => simp [splitOnChar]
  | cons c cs =>
    rw [splitOnChar]
    rcases h : splitOnChar sep cs with _ | ⟨s, rest⟩
    · simp
    · by_cases hc : c = sep <;> simp [hc]

theorem join_split (sep : Char) (l : CStr) :
    joinChar sep (splitOnChar sep l) = l := by
  induction l with
  | nil => rfl
  | cons c cs ih =>
    rw [splitOnChar]
    rcases h : splitOnChar sep cs with _ | ⟨s, rest⟩
    · exact absurd h (splitOnChar_ne_nil sep cs)
    · rw [h] at ih
      by_cases hc : c = sep
      · subst hc
        simp only [if_pos rfl]
        rcases rest with _ | ⟨t, rest'⟩
        · simp [joinChar] at ih ⊢
          exact ih
        · simp [joinChar] at ih ⊢
          exact ih
      · simp only [if_neg hc]
        rcases rest with _ | ⟨t, rest'⟩
        · simp [joinChar] at ih ⊢
          exact ih
        · simp [joinChar] at ih ⊢
          exact ih

theorem split_eq_one {sep : Char} {l p : CStr} (h : splitOnChar sep l = [p]) :
    l = p := by
  have hj := join_split sep l
  rw [h] at hj
  simpa [joinChar] using hj.symm

theorem split_eq_two {sep : Char} {l p f : CStr} (h : splitOnChar sep l = [p, f]) :
    l = p ++ sep :: f := by
  have hj := join_split sep l
  rw [h] at hj
  simpa [joinChar] using hj.symm

theorem kindToC_kindOfC {s : CStr} {k : ResourceKind} (h : kindOfC s = some k) :
    kindToC k = s := by
  rw [kindOfC] at h
  split_ifs at h with h1 h2 h3 h4 <;> injection h with h <;> subst h <;>
    simp_all [kindToC]

theorem serializeFilter_parseFilter {f : CStr} {cf : CFilter}
    (h : parseFilter f = .ok cf) : serializeFilter cf = f := by
  rw [parseFilter] at h
  split at h
  case h_1 k heq =>
    split at h
    case h_1 kd hk =>
      injection h with h
      subst h
      rw [serializeFilter, kindToC_kindOfC hk]
      exact (split_eq_one heq).symm
    case h_2 => exact absurd h (by simp)
  case h_2 k i heq =>
    split at h
    case h_1 kd hk =>
      injection h with h
      subst h
      rw [serializeFilter, kindToC_kindOfC hk]
      exact (split_eq_two heq).symm
    case h_2 => exact absurd h (by simp)
  case h_3 => exact absurd h (by simp)

theorem serializeScope_parseScope {s : CStr} {sc : ScopeStr}
    (h : parseScope s = .ok sc) : serializeScope sc = s := by
  rw [parseScope] at h
  split at h
  case h_1 p heq =>
    dsimp only at h
    split_ifs at h with hok
    injection h with h
    subst h
    rw [serializeScope]
    simp only [join_split]
    rw [List.append_nil]
    exact (split_eq_one heq).symm
  case h_2 p f heq =>
    dsimp only at h
    split_ifs at h with hok
    rcases hf : parseFilter f with e | cf
    · rw [hf] at h
      exact absurd h (by simp [Except.map])
    · rw [hf] at h
      simp only [Except.map, Except.ok.injEq] at h
      subst h
      rw [serializeScope]
      simp only [join_split]
      rw [serializeFilter_parseFilter hf]
      exact (split_eq_two heq).symm
  case h_3 => exact absurd h (by simp)

/-! ## Scopes, implication graph and reachability (spec §3, §4.2, §4.3)

For the engine components, namespace paths are lists of segment names
(`List String`); the grammar above describes their textual form.  The
implication ("subscope") relation is an adjacency list keyed by namespace
path (§9: "adjacency mapping keyed by namespace path").
-/

/-- A namespace path of an engine scope, e.g. `["custom","grades","read"]`. -/
abbrev SPath := List String

/-- Modelled from the spec: a resource filter of a scope (§3) — unfiltered,
a named resource kind with a concrete identifier (`server=alice/lab`), or a
self-referential filter (`!server`, `!user`). -/
inductive ResourceFilter
  | unfiltered
  | named (kind : ResourceKind) (id : String)
  | selfRef (kind : ResourceKind)
deriving DecidableEq, Repr

/-- Modelled from the spec: an engine scope — immutable value of namespace
path plus resource filter (§3); the scope/role code is not in the source
excerpt. -/
structure Scope where
  path : SPath
  filter : ResourceFilter
deriving DecidableEq, Repr

/-- The implication (subscope) graph: adjacency list from a scope's
namespace path to the paths it directly implies. -/
abbrev ScopeGraph := List (SPath × List SPath)

/-- Direct (one-hop) implications of a path, `implied_by` of §4.2. -/
def implied_by (g : ScopeGraph) (p : SPath) : List SPath :=
  (g.filter (fun e => decide (e.1 = p))).flatMap (fun e => e.2)

/-- The one-step implication relation: `b` is a direct subscope of `a`. -/
def edgeRel (g : ScopeGraph) (a b : SPath) : Prop := b ∈ implied_by g a

instance (g : ScopeGraph) (a b : SPath) : Decidable (edgeRel g a b) := by
  unfold edgeRel
  infer_instance

/-- One traversal round: add every direct implication of every path
already reached (the worklist step of the breadth-first traversal of
§4.3). -/
def stepR (g : ScopeGraph) (R : Finset SPath) : Finset SPath :=
  R ∪ R.biUnion (fun p => (implied_by g p).toFinset)

/-- All paths that can ever appear while traversing from `p`: `p` itself
plus every path mentioned anywhere in the graph.  Its cardinality bounds the
number of traversal rounds (the defensive visited-set bound of §4.3). -/
def graphUniv (g : ScopeGraph) (p : SPath) : Finset SPath :=
  insert p (g.flatMap (fun e => e.1 :: e.2)).toFinset

/-- Modelled from the spec: the set of namespace paths reachable from `p`
through the implication graph — the breadth-first traversal of §4.3 with its
visited-set termination bound; the expander code is not in the source
excerpt. -/
def reachFrom (g : ScopeGraph) (p : SPath) : Finset SPath :=
  (stepR g)^[(graphUniv g p).card] {p}

theorem subset_stepR (g : ScopeGraph) (R : Finset SPath) : R ⊆ stepR g R :=
  Finset.subset_union_left

theorem stepR_mono (g : ScopeGraph) {R S : Finset SPath} (h : R ⊆ S) :
    stepR g R ⊆ stepR g S :=
  Finset.union_subset_union h (Finset.biUnion_subset_biUnion_of_subset_left _ h)

theorem iter_mono_subset (g : ScopeGraph) (k : ℕ) {R S : Finset SPath} (h : R ⊆ S) :
    (stepR g)^[k] R ⊆ (stepR g)^[k] S := by
  induction k generalizing R S with
  | zero => simpa using h
  | succ k ih =>
      rw [Function.iterate_succ_apply, Function.iterate_succ_apply]
      exact ih (stepR_mono g h)

theorem iter_le_iter (g : ScopeGraph) (R : Finset SPath) {j k : ℕ} (h : j ≤ k) :
    (stepR g)^[j] R ⊆ (stepR g)^[k] R := by
  induction k with
  | zero => simp [Nat.le_zero.mp h]
  | succ k ih =>
      rcases Nat.lt_or_ge j (k+1) with hk | hk
      · intro x hx
        have hx' := ih (by omega) hx
        rw [Function.iterate_succ_apply']
        exact subset_stepR g _ hx'
      · have : j = k + 1 := by omega
        subst this
        exact fun x hx => hx

theorem mem_stepR_iff (g : ScopeGraph) (R : Finset SPath) (q : SPath) :
    q ∈ stepR g R ↔ q ∈ R ∨ ∃ r ∈ R, q ∈ implied_by g r := by
  simp [stepR]

theorem iter_sound (g : ScopeGraph) (p : SPath) (k : ℕ) :
    ∀ q ∈ (stepR g)^[k] ({p} : Finset SPath),
      Relation.ReflTransGen (edgeRel g) p q := by
  induction k with
  | zero =>
      intro q hq
      simp at hq
      subst hq
      exact Relation.ReflTransGen.refl
  | succ k ih =>
      intro q hq
      rw [Function.iterate_succ_apply'] at hq
      rcases (mem_stepR_iff g _ q).mp hq with h | ⟨r, hr, hqr⟩
      · exact ih q h
      · exact Relation.ReflTransGen.tail (ih r hr) hqr

theorem implied_by_subset_univ (g : ScopeGraph) (p r : SPath) :
    ∀ q ∈ implied_by g r, q ∈ graphUniv g p := by
  intro q hq
  simp only [implied_by, List.mem_flatMap, List.mem_filter] at hq
  obtain ⟨e, ⟨he, _⟩, hqe⟩ := hq
  simp only [graphUniv, Finset.mem_insert, List.mem_toFinset, List.mem_flatMap]
  exact Or.inr ⟨e, he, by simp [hqe]⟩

theorem iter_subset_univ (g : ScopeGraph) (p : SPath) (k : ℕ) :
    (stepR g)^[k] ({p} : Finset SPath) ⊆ graphUniv g p := by
  induction k with
  | zero => simp [graphUniv]
  | succ k ih =>
      rw [Function.iterate_succ_apply']
      intro q hq
      rcases (mem_stepR_iff g _ q).mp hq with h | ⟨r, hr, hqr⟩
      · exact ih h
      · exact implied_by_subset_univ g p r q hqr

theorem iter_fixed_from (g : ScopeGraph) (R : Finset SPath) (k : ℕ)
    (hfix : (stepR g)^[k+1] R = (stepR g)^[k] R) :
    ∀ m, k ≤ m → (stepR g)^[m] R = (stepR g)^[k] R := by
  intro m hm
  induction m with
  | zero =>
      have : k = 0 := by omega
      subst this
      rfl
  | succ m ih =>
      rcases Nat.lt_or_ge k (m+1) with hk | hk
      · have hm' : k ≤ m := by omega
        have hmk := ih hm'
        rw [Function.iterate_succ_apply'] at hfix
        rw [Function.iterate_succ_apply', hmk, hfix]
      · have : k = m + 1 := by omega
        subst this
        rfl

theorem card_grows (g : ScopeGraph) (p : SPath) (N : ℕ)
    (h : ∀ k < N, (stepR g)^[k+1] ({p} : Finset SPath) ≠
      (stepR g)^[k] ({p} : Finset SPath)) :
    N + 1 ≤ ((stepR g)^[N] ({p} : Finset SPath)).card := by
  induction N with
  | zero => simp
  | succ N ih =>
      have hlt : ((stepR g)^[N] ({p} : Finset SPath)).card <
          ((stepR g)^[N+1] ({p} : Finset SPath)).card := by
        apply Finset.card_lt_card
        rw [Finset.ssubset_iff_subset_ne]
        refine ⟨iter_le_iter g _ (by omega), ?_⟩
        exact fun hc => h N (by omega) hc.symm
      have := ih (fun k hk => h k (by omega))
      omega

theorem exists_fix (g : ScopeGraph) (p : SPath) :
    ∃ k < (graphUniv g p).card,
      (stepR g)^[k+1] ({p} : Finset SPath) = (stepR g)^[k] ({p} : Finset SPath) := by
  by_contra hc
  push_neg at hc
  have h1 := card_grows g p (graphUniv g p).card hc
  have h2 := Finset.card_le_card (iter_subset_univ g p (graphUniv g p).card)
  omega

/-- Membership in `reachFrom` is exactly reflexive-transitive reachability
along the implication edges. -/
theorem reachFrom_iff (g : ScopeGraph) (p q : SPath) :
    q ∈ reachFrom g p ↔ Relation.ReflTransGen (edgeRel g) p q := by
  constructor
  · exact fun h => iter_sound g p _ q h
  · intro h
    induction h with
    | refl =>
        have : p ∈ ({p} : Finset SPath) := Finset.mem_singleton_self p
        exact iter_le_iter g _ (Nat.zero_le _) this
    | tail hab hbc ih =>
        rename_i b c
        obtain ⟨k, hk, hfix⟩ := exists_fix g p
        have hN := iter_fixed_from g _ k hfix
        have hb : b ∈ (stepR g)^[(graphUniv g p).card] ({p} : Finset SPath) := ih
        have hc : c ∈ (stepR g)^[(graphUniv g p).card + 1] ({p} : Finset SPath) := by
          rw [Function.iterate_succ_apply']
          exact (mem_stepR_iff g _ c).mpr (Or.inr ⟨b, hb, hbc⟩)
        rw [hN ((graphUniv g p).card + 1) (by omega),
          ← hN ((graphUniv g p).card) (by omega)] at hc
        exact hc

theorem self_mem_reachFrom (g : ScopeGraph) (p : SPath) : p ∈ reachFrom g p :=
  (reachFrom_iff g p p).mpr Relation.ReflTransGen.refl

/-! ## Custom scope registry (spec §4.2) -/

/-- Modelled from the spec: a registered extension scope — namespace path,
human description, and the set of directly implied subscope paths (§3,
§6 configuration surface); the registry code is not in the source excerpt.
The configuration files in the excerpt instantiate this, e.g.
`custom:grades:write` with `subscopes: [custom:grades:read]`. -/
structure CustomScopeDefinition where
  scope : SPath
  description : String
  subscopes : List SPath
deriving DecidableEq, Repr

/-- Modelled from the spec: the combined implication graph — built-in scopes
with their fixed implications first, then the custom definitions (§4.2
two-phase load: collect all definitions, then validate). -/
def buildGraph (builtins : ScopeGraph) (defs : List CustomScopeDefinition) :
    ScopeGraph :=
  builtins ++ defs.map (fun d => (d.scope, d.subscopes))

/-- Modelled from the spec: `CyclicScopeError`, naming a scope on the cycle
for operator diagnosis (§4.2, §7). -/
structure CyclicScopeError where
  node : SPath
deriving DecidableEq, Repr

/-- Modelled from the spec: the registry after `close()` — immutable by
construction (a pure value; no mutating operation exists on it). -/
structure ClosedRegistry where
  graph : ScopeGraph
deriving DecidableEq, Repr

/-- Search for a scope that lies on an implication cycle: an edge `a → b`
such that `a` is reachable from `b` again.  The reachability traversal is
depth-bounded by the visited set, so the check always terminates (§4.2,
§8 acyclicity enforcement). -/
def findCycleNode (g : ScopeGraph) : Option SPath :=
  g.findSome? (fun e => e.2.findSome? (fun b =>
    if e.1 ∈ reachFrom g b then some e.1 else none))

/-- Modelled from the spec: `close()` — validate that the combined
implication graph is acyclic; fail with `CyclicScopeError` naming a scope on
the cycle, otherwise freeze the registry (§4.2). -/
def closeRegistry (g : ScopeGraph) : Except CyclicScopeError ClosedRegistry :=
  match findCycleNode g with
  | some a => .error ⟨a⟩
  | none => .ok ⟨g⟩

/-- A cycle in the implication graph: some path implies itself through one
or more edges. -/
def HasCycle (g : ScopeGraph) : Prop :=
  ∃ a, Relation.TransGen (edgeRel g) a a

theorem edgeRel_of_entry {g : ScopeGraph} {e : SPath × List SPath} {b : SPath}
    (he : e ∈ g) (hb : b ∈ e.2) : edgeRel g e.1 b := by
  rw [edgeRel, implied_by]
  simp only [List.mem_flatMap, List.mem_filter]
  exact ⟨e, ⟨he, by simp⟩, hb⟩

theorem findCycleNode_some {g : ScopeGraph} {a : SPath}
    (h : findCycleNode g = some a) : Relation.TransGen (edgeRel g) a a := by
  obtain ⟨e, he, hinner⟩ := List.exists_of_findSome?_eq_some h
  obtain ⟨b, hb, hif⟩ := List.exists_of_findSome?_eq_some hinner
  by_cases hr : e.1 ∈ reachFrom g b
  · rw [if_pos hr] at hif
    injection hif with hif
    subst hif
    exact Relation.TransGen.head'_iff.mpr
      ⟨b, edgeRel_of_entry he hb, (reachFrom_iff g b e.1).mp hr⟩
  · rw [if_neg hr] at hif
    exact absurd hif (by simp)

theorem findCycleNode_none {g : ScopeGraph}
    (h : findCycleNode g = none) : ¬ HasCycle g := by
  rintro ⟨a, hcyc⟩
  obtain ⟨b, hab, hba⟩ := Relation.TransGen.head'_iff.mp hcyc
  rw [edgeRel, implied_by] at hab
  simp only [List.mem_flatMap, List.mem_filter, decide_eq_true_eq] at hab
  obtain ⟨e, ⟨he, hkey⟩, hb⟩ := hab
  have hinner := List.findSome?_eq_none_iff.mp h e he
  have hif := List.findSome?_eq_none_iff.mp hinner b hb
  rw [hkey] at hif
  have hr : a ∈ reachFrom g b := (reachFrom_iff g b a).mpr hba
  rw [if_pos hr] at hif
  exact absurd hif (by simp)

/-! ## Scope expander (spec §4.3) -/

/-- Expansion of a single scope: every namespace path reachable through the
implication graph, each carrying the original scope's resource filter (§4.3:
a filtered grant only implies grants under the same filter, an unfiltered
grant implies unfiltered grants). -/
def expandScope (g : ScopeGraph) (sc : Scope) : Finset Scope :=
  (reachFrom g sc.path).image (fun q => ⟨q, sc.filter⟩)

/-- Modelled from the spec: `expand` — the closure of a scope set under
`implied_by`, preserving each original scope's resource filter on every
scope it implies (§4.3); the expander code is not in the source excerpt. -/
def expand (g : ScopeGraph) (S : Finset Scope) : Finset Scope :=
  S.biUnion (fun sc => expandScope g sc)

theorem mem_expand_iff (g : ScopeGraph) (S : Finset Scope) (t : Scope) :
    t ∈ expand g S ↔ ∃ s ∈ S,
      Relation.ReflTransGen (edgeRel g) s.path t.path ∧ t.filter = s.filter := by
  simp only [expand, Finset.mem_biUnion, expandScope, Finset.mem_image]
  constructor
  · rintro ⟨s, hs, q, hq, rfl⟩
    exact ⟨s, hs, (reachFrom_iff g s.path q).mp hq, rfl⟩
  · rintro ⟨s, hs, hreach, hfil⟩
    refine ⟨s, hs, t.path, (reachFrom_iff g s.path t.path).mpr hreach, ?_⟩
    cases t
    simp_all

theorem subset_expand (g : ScopeGraph) (S : Finset Scope) : S ⊆ expand g S := by
  intro s hs
  exact (mem_expand_iff g S s).mpr ⟨s, hs, Relation.ReflTransGen.refl, rfl⟩

theorem expand_mono (g : ScopeGraph) {S T : Finset Scope} (h : S ⊆ T) :
    expand g S ⊆ expand g T := by
  intro t ht
  rw [mem_expand_iff] at ht ⊢
  obtain ⟨s, hs, hr, hf⟩ := ht
  exact ⟨s, h hs, hr, hf⟩

/-! ## Subjects, resources and the filter matcher (spec §3, §4.4) -/

/-- Modelled from the spec: a concrete resource instance, kind plus
identifier (§6 inbound `ResourceRef`). -/
structure ResourceRef where
  kind : ResourceKind
  id : String
deriving DecidableEq, Repr

/-- Modelled from the spec: a subject — user (with owned servers and bound
role names), service (bound role names, no owned servers), or server-token
(derived from an owning user, tied to the one issuing server, carrying the
owner's allow-listed scope set) (§3, §6); the subject descriptors are not in
the source excerpt. -/
inductive Subject
  | user (name : String) (servers : List String) (roleNames : List String)
  | service (name : String) (roleNames : List String)
  | serverToken (owner : String) (server : String) (roleNames : List String)
      (allowList : List Scope)
deriving DecidableEq, Repr

/-- The role names bound to a subject. -/
def Subject.roleNames : Subject → List String
  | .user _ _ rs => rs
  | .service _ rs => rs
  | .serverToken _ _ rs _ => rs

/-- The subject's own identity name (for a server-token, the owning
user). -/
def Subject.identityName : Subject → String
  | .user n _ _ => n
  | .service n _ => n
  | .serverToken owner _ _ _ => owner

/-- The servers owned by (or equal to) the subject's own identity for
self-referential filter matching: a user owns its servers; a service owns no
servers; a server-token's own server is exactly the one that issued the
token, never another server owned by the same user (§4.4). -/
def Subject.ownedServers : Subject → List String
  | .user _ servers _ => servers
  | .service _ _ => []
  | .serverToken _ srv _ _ => [srv]

/-- Replace a subject's bound role names, keeping everything else. -/
def Subject.withRoleNames : Subject → List String → Subject
  | .user n s _, rs => .user n s rs
  | .service n _, rs => .service n rs
  | .serverToken o srv _ al, rs => .serverToken o srv rs al

/-- Modelled from the spec: `matches` of the resource filter matcher (§4.4) —
an unfiltered scope matches any resource; a named filter matches exactly its
kind and identifier; a self-referential filter matches iff the requested
resource is owned by (or equal to) the subject's own identity; a filter kind
mismatching the resource kind never matches (fails closed).  Self-referential
matching for kinds other than `user`/`server` fails closed (§9 open
question).  The matcher code is not in the source excerpt. -/
def filterMatches (f : ResourceFilter) (res : ResourceRef) (subj : Subject) :
    Bool :=
  match f with
  | .unfiltered => true
  | .named k i => decide (res.kind = k) && decide (res.id = i)
  | .selfRef k =>
    match k with
    | .user => decide (res.kind = .user) && decide (res.id = subj.identityName)
    | .server => decide (res.kind = .server) && decide (res.id ∈ subj.ownedServers)
    | _ => false

/-- The requested resource is owned by, or equal to, the subject's own
identity at the given resource kind — the right-hand side of the §4.4
self-referential matching rule, stated independently of `filterMatches`. -/
def OwnsOrIs (subj : Subject) (res : ResourceRef) (k : ResourceKind) : Prop :=
  (k = .user ∧ res.kind = .user ∧ res.id = subj.identityName) ∨
  (k = .server ∧ res.kind = .server ∧ res.id ∈ subj.ownedServers)

/-! ## Role resolver (spec §4.5) -/

/-- Modelled from the spec: a role — named permission bundle of scopes, with
an optional resource qualifier to be applied to its unfiltered scopes at
resolution time (§3); the role code is not in the source excerpt.  The
configuration files in the excerpt instantiate this, e.g. role `graders`
granting `custom:grades:write`. -/
structure Role where
  name : String
  scopes : List Scope
  resource_qualifier : Option ResourceKind
deriving DecidableEq, Repr

/-- Apply a role's resource qualifier: every *unfiltered* scope of the role
is rewritten to carry the self-referential qualifier, to be resolved against
the subject by the matcher; filtered scopes are kept as stored (§4.5). -/
def qualifyScopes (r : Role) : List Scope :=
  match r.resource_qualifier with
  | none => r.scopes
  | some k => r.scopes.map (fun sc =>
      if sc.filter = .unfiltered then ⟨sc.path, .selfRef k⟩ else sc)

/-- Look up a role by name in the role table. -/
def lookupRole (table : List Role) (n : String) : Option Role :=
  table.find? (fun r => decide (r.name = n))

/-- Modelled from the spec: the outcome of role resolution — the subject's
raw scope set, together with the bound-role names that were missing from the
role table (`UnboundRoleError` conditions, §4.5/§7: reported, and the role
is treated as contributing no scopes rather than crashing the request). -/
structure ResolveResult where
  scopes : Finset Scope
  unboundRoles : List String
deriving DecidableEq

/-- Modelled from the spec: `resolve` (§4.5) — union each bound role's
scopes (qualified as configured); for server-token subjects, additionally
intersect with the scope set the issuing user's server was configured to be
allowed to request; report bound-role names missing from the table.  The
resolver code is not in the source excerpt. -/
def resolve (table : List Role) (subj : Subject) : ResolveResult :=
  let granted :=
    ((subj.roleNames.filterMap (lookupRole table)).flatMap qualifyScopes).toFinset
  let raw :=
    match subj with
    | .serverToken _ _ _ allowList => granted ∩ allowList.toFinset
    | _ => granted
  ⟨raw, subj.roleNames.filter (fun n => (lookupRole table n).isNone)⟩

/-! ## Authorization engine façade (spec §4.6) -/

/-- Modelled from the spec: the denial reasons of an
`AuthorizationDecision` (§3). -/
inductive DenialReason
  | no_matching_scope
  | resource_filter_mismatch
  | unknown_scope_in_request
deriving DecidableEq, Repr

/-- Modelled from the spec: the result of one authorization check —
`allowed`, and if denied, the reason (§3). -/
structure AuthorizationDecision where
  allowed : Bool
  reason : Option DenialReason
deriving DecidableEq, Repr

/-- Namespace matching of a stored scope path against a required path:
exact path equality, or the stored path ends in the wildcard segment and
the part before the wildcard is a leading part of the required path
(§4.6 step 3). -/
def pathCovers (stored req : SPath) : Bool :=
  decide (stored = req) ||
    (decide (stored.getLast? = some "*") &&
      decide (req.take stored.dropLast.length = stored.dropLast))

/-- Modelled from the spec: `effective_scopes` (§4.6) — resolve then expand,
the subject's full expanded scope set. -/
def effective_scopes (g : ScopeGraph) (table : List Role) (subj : Subject) :
    Finset Scope :=
  expand g (resolve table subj).scopes

/-- Modelled from the spec: `authorize` (§4.6) — resolve, expand, then check
each required-scope alternative (logical OR) for a scope whose namespace
matches and whose filter passes against the resource; allowed on first
match, otherwise denied with `resource_filter_mismatch` when at least one
namespace matched but no filter did, else `no_matching_scope`.  The façade
code is not in the source excerpt. -/
def authorize (g : ScopeGraph) (table : List Role) (subj : Subject)
    (required : List SPath) (res : ResourceRef) : AuthorizationDecision :=
  let eff := effective_scopes g table subj
  if ∃ rp ∈ required, ∃ sc ∈ eff,
      pathCovers sc.path rp = true ∧ filterMatches sc.filter res subj = true then
    ⟨true, none⟩
  else if ∃ rp ∈ required, ∃ sc ∈ eff, pathCovers sc.path rp = true then
    ⟨false, some .resource_filter_mismatch⟩
  else
    ⟨false, some .no_matching_scope⟩

/-! ## Metrics helpers (source: `jupyterhub/metrics.py`) -/

/-- The values of the `ServerPollStatus` enum
(`jupyterhub/metrics.py`, lines 153-166). -/
inductive ServerPollStatus
  | running
  | stopped
deriving DecidableEq, Repr

/-- Translation of `ServerPollStatus.from_status` (`jupyterhub/metrics.py`,
lines 161-166): `running` when the poll status is `None`, `stopped` for any
other value.  The dynamically-typed Python argument is modelled as
`Option α`, with `Option.none` for `None`; the function is total, so it
never raises. -/
def ServerPollStatus.from_status {α : Type} (status : Option α) :
    ServerPollStatus :=
  match status with
  | none => ServerPollStatus.running
  | some _ => ServerPollStatus.stopped

/-- A value yielded by the `_prometheus_log_scale` generator: a finite float
(modelled as an exact rational) or `float("inf")`. -/
inductive PromValue
  | val (q : ℚ)
  | inf
deriving DecidableEq, Repr

theorem ten_iter_exists (e v : ℚ) (hv : 0 < v) : ∃ n : ℕ, e ≤ v * 10 ^ n := by
  obtain ⟨n, hn⟩ := pow_unbounded_of_one_lt (e / v) (by norm_num : (1:ℚ) < 10)
  exact ⟨n, by rw [div_lt_iff₀ hv] at hn; linarith [hn]⟩

/-- The number of `value *= 10` steps the `while value < end` loop of
`_prometheus_log_scale` performs before `value < end` fails: the least `n`
with `end ≤ value * 10 ^ n` (0 when `value` is not positive; the source only
reaches the loop with positive `value`). -/
def tenIterBound (e v : ℚ) : ℕ :=
  if hv : 0 < v then Nat.find (ten_iter_exists e v hv) else 0

theorem tenIterBound_spec (e v : ℚ) (hv : 0 < v) :
    e ≤ v * 10 ^ tenIterBound e v := by
  rw [tenIterBound, dif_pos hv]
  exact Nat.find_spec (ten_iter_exists e v hv)

theorem tenIterBound_min (e v : ℚ) (hv : 0 < v) {m : ℕ}
    (hm : e ≤ v * 10 ^ m) : tenIterBound e v ≤ m := by
  rw [tenIterBound, dif_pos hv]
  exact Nat.find_min' _ hm

theorem tenIterBound_pos (e v : ℚ) (hv : 0 < v) (hlt : v < e) :
    1 ≤ tenIterBound e v := by
  by_contra hc
  push_neg at hc
  interval_cases h : tenIterBound e v
  · have := tenIterBound_spec e v hv
    rw [h] at this
    simp at this
    linarith

theorem tenIterBound_succ_le (e v : ℚ) (hv : 0 < v) (hlt : v < e) :
    tenIterBound e (v * 10) ≤ tenIterBound e v - 1 := by
  apply tenIterBound_min e _ (by positivity)
  have hs := tenIterBound_spec e v hv
  have h1 := tenIterBound_pos e v hv hlt
  have ht : tenIterBound e v - 1 + 1 = tenIterBound e v := by omega
  calc e ≤ v * 10 ^ tenIterBound e v := hs
  _ = v * 10 ^ (tenIterBound e v - 1 + 1) := by rw [ht]
  _ = v * 10 * 10 ^ (tenIterBound e v - 1) := by ring

theorem tenIterBound_succ_lt (e v : ℚ) (hv : 0 < v) (hlt : v < e) :
    tenIterBound e (v * 10) < tenIterBound e v := by
  have h1 := tenIterBound_pos e v hv hlt
  have h2 := tenIterBound_succ_le e v hv hlt
  omega

theorem tenIterBound_succ_eq (e v : ℚ) (hv : 0 < v) (hlt : v < e) :
    tenIterBound e (v * 10) = tenIterBound e v - 1 := by
  have h2 := tenIterBound_succ_le e v hv hlt
  have h3 : tenIterBound e v ≤ tenIterBound e (v * 10) + 1 := by
    apply tenIterBound_min e v hv
    have hs := tenIterBound_spec e (v * 10) (by positivity)
    calc e ≤ v * 10 * 10 ^ tenIterBound e (v * 10) := hs
    _ = v * 10 ^ (tenIterBound e (v * 10) + 1) := by ring
  omega

/-- The `while value < end` loop of `_prometheus_log_scale`
(`jupyterhub/metrics.py`, lines 248-256): while `value < end`, yield
`value`, `value * 2.5`, `value * 5`, `value * 7.5` and multiply `value` by
10; after the loop, yield the end value once more.  The guard additionally
carries `0 < value`, which the source guarantees by its power-of-10 check
(a non-positive `value` would never terminate in Python); Lean requires the
bound for termination. -/
def logScaleLoop (e v : ℚ) : List ℚ :=
  if h : 0 < v ∧ v < e then
    v :: v * (5/2) :: v * 5 :: v * (15/2) :: logScaleLoop e (v * 10)
  else [v]
termination_by tenIterBound e v
decreasing_by exact tenIterBound_succ_lt e v h.1 h.2

/-- The candidate decimal exponent of a positive rational, from the decimal
magnitudes of numerator and denominator. -/
def leadExpCand (q : ℚ) : ℤ :=
  (Nat.log 10 q.num.toNat : ℤ) - (Nat.log 10 q.den : ℤ)

/-- The decimal exponent of a positive rational: the `N` of its scientific
notation `d.dddddd e N`. -/
def leadExp (q : ℚ) : ℤ :=
  if q < (10:ℚ) ^ leadExpCand q then leadExpCand q - 1 else leadExpCand q

/-- The mantissa of the scientific notation of a positive `q`, rounded to
six decimal places and scaled to an integer:
`round(q / 10^leadExp(q) * 10^6)`, i.e. the seven decimal digits printed by
Python's `f"{q:e}"`.  Mathlib's `round` is round-half-up while the format's
correctly-rounded conversion is ties-to-even; at the two thresholds that
decide the first printed digit (`1999999.5` and `9999999.5`) both rules
round up to the even threshold value, so the acceptance predicate built on
this below is unaffected (and a binary float never produces an exact
decimal tie in the first place). -/
def sciMant (q : ℚ) : ℤ := round (q * (10:ℚ) ^ ((6:ℤ) - leadExp q))

/-- Translation of the power-of-10 check of `_prometheus_log_scale`
(`jupyterhub/metrics.py`, line 246): `f"{start:e}"[0] != "1"`.  The first
character of the formatted string is `'-'` for negative values and `'0'`
for zero; for positive `q` it is the leading digit of the mantissa *after*
its rounding to six decimal places — the digit 1 exactly when the rounded,
scaled mantissa lies in `[10^6, 2*10^6)`, or equals `10^7` (a mantissa such
as 9.9999999 rounds all the way up to 10.000000, which the format carries
into the exponent and prints as `1.000000e+(N+1)`). -/
def sciFirstDigitOne (q : ℚ) : Bool :=
  if 0 < q then
    (decide ((10:ℤ) ^ 6 ≤ sciMant q) && decide (sciMant q < 2 * 10 ^ 6)) ||
      decide (sciMant q = 10 ^ 7)
  else false

/-- Translation of `_prometheus_log_scale` (`jupyterhub/metrics.py`, lines
235-258).  The generator is modelled as the full list of values it yields:
it raises `ValueError` (modelled as `Except.error`) when the first digit of
`start` in scientific notation is not 1, and otherwise yields the loop
values followed by `float("inf")` when `include_inf` is set. -/
def prometheus_log_scale (start e : ℚ) (include_inf : Bool) :
    Except String (List PromValue) :=
  if sciFirstDigitOne start then
    .ok ((logScaleLoop e start).map PromValue.val ++
      if include_inf then [PromValue.inf] else [])
  else
    .error "start must be a power of 10 (1eN)"

theorem logScaleLoop_head (e v : ℚ) : (logScaleLoop e v).head? = some v := by
  rw [logScaleLoop]
  split <;> rfl

theorem logScaleLoop_ne_nil (e v : ℚ) : logScaleLoop e v ≠ [] := by
  rw [logScaleLoop]
  split <;> simp

theorem logScaleLoop_chain (e : ℚ) :
    ∀ v : ℚ, 0 < v → (logScaleLoop e v).Chain' (· < ·) := by
  refine logScaleLoop.induct e
    (fun v => 0 < v → (logScaleLoop e v).Chain' (· < ·)) ?_ ?_
  · intro v h ih hv
    rw [logScaleLoop, dif_pos h]
    have hL := ih (by positivity)
    have hhead := logScaleLoop_head e (v * 10)
    rw [List.chain'_cons, List.chain'_cons, List.chain'_cons]
    refine ⟨by nlinarith, by nlinarith, by nlinarith, ?_⟩
    rw [List.chain'_cons']
    refine ⟨?_, hL⟩
    intro y hy
    rw [hhead] at hy
    simp at hy
    subst hy
    nlinarith
  · intro v h hv
    rw [logScaleLoop, dif_neg h]
    simp

theorem logScaleLoop_getLast (e : ℚ) :
    ∀ v : ℚ, 0 < v →
      (logScaleLoop e v).getLast? = some (v * 10 ^ tenIterBound e v) := by
  refine logScaleLoop.induct e
    (fun v => 0 < v →
      (logScaleLoop e v).getLast? = some (v * 10 ^ tenIterBound e v)) ?_ ?_
  · intro v h ih hv
    rw [logScaleLoop, dif_pos h]
    have hL := ih (by positivity)
    obtain ⟨t, ts, hL0⟩ :=
      List.exists_cons_of_ne_nil (logScaleLoop_ne_nil e (v * 10))
    rw [hL0] at hL ⊢
    rw [List.getLast?_cons_cons, List.getLast?_cons_cons,
      List.getLast?_cons_cons, List.getLast?_cons_cons]
    rw [hL]
    have heq := tenIterBound_succ_eq e v h.1 h.2
    have h1 := tenIterBound_pos e v h.1 h.2
    have ht : tenIterBound e v - 1 + 1 = tenIterBound e v := by omega
    congr 1
    rw [heq]
    calc v * 10 * 10 ^ (tenIterBound e v - 1)
        = v * 10 ^ (tenIterBound e v - 1 + 1) := by ring
    _ = v * 10 ^ tenIterBound e v := by rw [ht]
  · intro v h hv
    rw [logScaleLoop, dif_neg h]
    have he : e ≤ v := by
      by_contra hc
      push_neg at hc
      exact h ⟨hv, hc⟩
    have h0 : tenIterBound e v = 0 :=
      Nat.le_zero.mp (tenIterBound_min e v hv (by simpa using he))
    rw [h0]
    simp

theorem leadExpCand_pow (k : ℤ) : leadExpCand ((10:ℚ) ^ k) = k := by
  rcases k with n | m
  · rw [Int.ofNat_eq_coe, zpow_natCast, leadExpCand, Rat.num_pow, Rat.den_pow]
    have hnum : (10:ℚ).num = 10 := rfl
    have hden : (10:ℚ).den = 1 := rfl
    rw [hnum, hden, one_pow, Nat.log_one_right]
    have hcast : (10:ℤ) ^ n = ((10 ^ n : ℕ) : ℤ) := by push_cast; ring
    rw [hcast, Int.toNat_natCast, Nat.log_pow (by norm_num)]
    simp
  · rw [zpow_negSucc]
    have hq : ((10:ℚ) ^ (m+1)) = ((10 ^ (m+1) : ℕ) : ℚ) := by push_cast; ring
    rw [hq, leadExpCand, Rat.inv_natCast_num_of_pos (by positivity),
      Rat.inv_natCast_den_of_pos (by positivity)]
    rw [Int.toNat_one, Nat.log_one_right, Nat.log_pow (by norm_num)]
    rw [Int.negSucc_eq]
    push_cast
    ring

theorem leadExp_pow (k : ℤ) : leadExp ((10:ℚ) ^ k) = k := by
  rw [leadExp, leadExpCand_pow, if_neg (lt_irrefl _)]

theorem zpow_ten_natCast (m : ℕ) : ((10:ℚ) ^ ((m:ℤ))) = ((10 ^ m : ℕ) : ℚ) := by
  rw [zpow_natCast]
  push_cast
  ring

/-- For every positive rational, `leadExp` is its true decimal exponent:
`10 ^ leadExp q ≤ q < 10 ^ (leadExp q + 1)`. -/
theorem leadExp_spec (q : ℚ) (hq : 0 < q) :
    (10:ℚ) ^ leadExp q ≤ q ∧ q < 10 ^ (leadExp q + 1) := by
  have hnum : 0 < q.num := Rat.num_pos.mpr hq
  have hn1 : 1 ≤ q.num.toNat := by omega
  have hden : 0 < q.den := q.pos
  have h1 : 10 ^ Nat.log 10 q.num.toNat ≤ q.num.toNat :=
    Nat.pow_log_le_self 10 (by omega)
  have h2 : q.num.toNat < 10 ^ (Nat.log 10 q.num.toNat + 1) :=
    Nat.lt_pow_succ_log_self (by norm_num) _
  have h3 : 10 ^ Nat.log 10 q.den ≤ q.den := Nat.pow_log_le_self 10 (by omega)
  have h4 : q.den < 10 ^ (Nat.log 10 q.den + 1) :=
    Nat.lt_pow_succ_log_self (by norm_num) _
  set a := Nat.log 10 q.num.toNat with ha
  set b := Nat.log 10 q.den with hb
  have hdpos : (0:ℚ) < (q.den : ℚ) := by exact_mod_cast hden
  have hqnd : ((q.num.toNat : ℚ)) = q * (q.den : ℚ) := by
    have hh := Rat.num_div_den q
    have hcast : ((q.num.toNat : ℚ)) = ((q.num : ℤ) : ℚ) := by
      rw [show ((q.num.toNat : ℚ)) = (((q.num.toNat : ℤ)) : ℚ) by push_cast; ring,
        Int.toNat_of_nonneg (by omega)]
    have hne : ((q.den : ℚ)) ≠ 0 := ne_of_gt hdpos
    rw [hcast, (div_eq_iff hne).mp hh]
  have h1q : ((10:ℚ) ^ ((a:ℤ))) ≤ (q.num.toNat : ℚ) := by
    rw [zpow_ten_natCast]
    exact_mod_cast h1
  have h2q : (q.num.toNat : ℚ) < (10:ℚ) ^ ((a:ℤ) + 1) := by
    rw [show ((a:ℤ) + 1) = (((a+1 : ℕ)):ℤ) by push_cast; ring, zpow_ten_natCast]
    exact_mod_cast h2
  have h3q : ((10:ℚ) ^ ((b:ℤ))) ≤ (q.den : ℚ) := by
    rw [zpow_ten_natCast]
    exact_mod_cast h3
  have h4q : (q.den : ℚ) < (10:ℚ) ^ ((b:ℤ) + 1) := by
    rw [show ((b:ℤ) + 1) = (((b+1 : ℕ)):ℤ) by push_cast; ring, zpow_ten_natCast]
    exact_mod_cast h4
  have hcand : leadExpCand q = (a:ℤ) - b := rfl
  have L1 : (10:ℚ) ^ ((a:ℤ) - b - 1) < q := by
    have step : (10:ℚ) ^ ((a:ℤ) - b - 1) * (q.den : ℚ) < q * (q.den : ℚ) := by
      rw [← hqnd]
      calc (10:ℚ) ^ ((a:ℤ) - b - 1) * (q.den : ℚ)
          < (10:ℚ) ^ ((a:ℤ) - b - 1) * (10:ℚ) ^ ((b:ℤ) + 1) :=
            mul_lt_mul_of_pos_left h4q (zpow_pos (by norm_num) _)
      _ = (10:ℚ) ^ ((a:ℤ)) := by
            rw [← zpow_add₀ (by norm_num : (10:ℚ) ≠ 0)]
            ring_nf
      _ ≤ (q.num.toNat : ℚ) := h1q
    exact lt_of_mul_lt_mul_right step (le_of_lt hdpos)
  have L2 : q < (10:ℚ) ^ ((a:ℤ) - b + 1) := by
    have step : q * (q.den : ℚ) < (10:ℚ) ^ ((a:ℤ) - b + 1) * (q.den : ℚ) := by
      rw [← hqnd]
      calc (q.num.toNat : ℚ) < (10:ℚ) ^ ((a:ℤ) + 1) := h2q
      _ = (10:ℚ) ^ ((a:ℤ) - b + 1) * (10:ℚ) ^ ((b:ℤ)) := by
            rw [← zpow_add₀ (by norm_num : (10:ℚ) ≠ 0)]
            ring_nf
      _ ≤ (10:ℚ) ^ ((a:ℤ) - b + 1) * (q.den : ℚ) :=
            mul_le_mul_of_nonneg_left h3q (le_of_lt (zpow_pos (by norm_num) _))
    exact lt_of_mul_lt_mul_right step (le_of_lt hdpos)
  rw [leadExp, hcand]
  by_cases hcase : q < (10:ℚ) ^ ((a:ℤ) - b)
  · rw [if_pos hcase]
    refine ⟨le_of_lt L1, ?_⟩
    rw [show (a:ℤ) - b - 1 + 1 = (a:ℤ) - b by ring]
    exact hcase
  · rw [if_neg hcase]
    exact ⟨le_of_not_lt hcase, L2⟩

/-- The decimal exponent is unique: any integer `E` with
`10^E ≤ q < 10^(E+1)` is `leadExp q`. -/
theorem leadExp_eq_of {q : ℚ} {E : ℤ} (hq : 0 < q)
    (h1 : (10:ℚ) ^ E ≤ q) (h2 : q < 10 ^ (E + 1)) : leadExp q = E := by
  obtain ⟨hs1, hs2⟩ := leadExp_spec q hq
  have h10 : (1:ℚ) < 10 := by norm_num
  have hle1 : leadExp q < E + 1 :=
    (zpow_lt_zpow_iff_right₀ h10).mp (lt_of_le_of_lt hs1 h2)
  have hle2 : E < leadExp q + 1 :=
    (zpow_lt_zpow_iff_right₀ h10).mp (lt_of_le_of_lt h1 hs2)
  omega

theorem sciMant_pow (k : ℤ) : sciMant ((10:ℚ) ^ k) = 10 ^ 6 := by
  rw [sciMant, leadExp_pow]
  rw [← zpow_add₀ (by norm_num : (10:ℚ) ≠ 0)]
  rw [show k + (6 - k) = (((6:ℕ)):ℤ) by ring]
  rw [zpow_natCast]
  rw [show ((10:ℚ) ^ (6:ℕ)) = (((10 ^ (6:ℕ) : ℤ)):ℚ) by push_cast; ring]
  rw [round_intCast]

theorem sciFirstDigitOne_pow (k : ℤ) : sciFirstDigitOne ((10:ℚ) ^ k) = true := by
  rw [sciFirstDigitOne, if_pos (zpow_pos (by norm_num : (0:ℚ) < 10) k),
    sciMant_pow]
  norm_num

/-- A positive value whose rounded, scaled mantissa lies in
`[2*10^6, 10^7)` — a first formatted digit of 2 through 9 — fails the
check. -/
theorem sciFirstDigitOne_false_of_digit {q : ℚ} {E : ℤ} (hq : 0 < q)
    (hlo : (10:ℚ) ^ E ≤ q) (hhi : q < 10 ^ (E + 1))
    (h2 : 2 * 10 ^ 6 ≤ round (q * (10:ℚ) ^ ((6:ℤ) - E)))
    (h7 : round (q * (10:ℚ) ^ ((6:ℤ) - E)) < 10 ^ 7) :
    sciFirstDigitOne q = false := by
  have hE := leadExp_eq_of hq hlo hhi
  rw [sciFirstDigitOne, if_pos hq, sciMant, hE]
  simp only [Bool.or_eq_false_iff, Bool.and_eq_false_iff,
    decide_eq_false_iff_not, not_le, not_lt]
  constructor
  · right
    omega
  · omega

deriving instance DecidableEq for Except

/-- A rational is a power of ten (`1eN` for an integer `N`, e.g. `1`, `0.1`,
`100`). -/
def IsPowerOfTen (q : ℚ) : Prop := ∃ k : ℤ, q = (10:ℚ) ^ k

/-! ## Claims -/

/-- C4: for every set of registered custom scope definitions whose combined
implication graph (built-ins plus custom edges) contains a cycle, `close()`
fails with `CyclicScopeError` naming a scope on the cycle, so the
configuration never loads; for every acyclic edge set `close()` succeeds
(yielding the immutable closed registry).  Termination of the cycle check
holds by construction: `closeRegistry` is a total function. -/
theorem claim4_close_rejects_cycles (builtins : ScopeGraph)
    (defs : List CustomScopeDefinition) :
    (HasCycle (buildGraph builtins defs) → ∃ a,
      closeRegistry (buildGraph builtins defs) = .error ⟨a⟩ ∧
      Relation.TransGen (edgeRel (buildGraph builtins defs)) a a) ∧
    (¬ HasCycle (buildGraph builtins defs) →
      closeRegistry (buildGraph builtins defs) = .ok ⟨buildGraph builtins defs⟩) := by
  constructor
  · intro hcyc
    rcases h : findCycleNode (buildGraph builtins defs) with _ | a
    · exact absurd hcyc (findCycleNode_none h)
    · exact ⟨a, by simp only [closeRegistry, h], findCycleNode_some h⟩
  · intro hn
    rcases h : findCycleNode (buildGraph builtins defs) with _ | a
    · simp only [closeRegistry, h]
    · exact absurd ⟨a, findCycleNode_some h⟩ hn

theorem claim4_witness : ∃ a,
    closeRegistry (buildGraph []
      [⟨["a"], "", [["b"]]⟩, ⟨["b"], "", [["a"]]⟩]) = .error ⟨a⟩ ∧
    Relation.TransGen
      (edgeRel (buildGraph [] [⟨["a"], "", [["b"]]⟩, ⟨["b"], "", [["a"]]⟩]))
      a a :=
  (claim4_close_rejects_cycles [] [⟨["a"], "", [["b"]]⟩, ⟨["b"], "", [["a"]]⟩]).1
    ⟨["a"], (Relation.TransGen.single
        (show edgeRel (buildGraph []
            [⟨["a"], "", [["b"]]⟩, ⟨["b"], "", [["a"]]⟩]) ["a"] ["b"]
          by decide)).trans
      (Relation.TransGen.single
        (show edgeRel (buildGraph []
            [⟨["a"], "", [["b"]]⟩, ⟨["b"], "", [["a"]]⟩]) ["b"] ["a"]
          by decide))⟩

/-- C5: for every valid scope string `s` (one the grammar accepts),
`serialize(parse(s)) = s` — serialization is the exact inverse of
parsing. -/
theorem claim5_roundtrip (s : CStr) (sc : ScopeStr)
    (h : parseScope s = .ok sc) : serializeScope sc = s :=
  serializeScope_parseScope h

theorem claim5_witness :
    parseScope ("custom:grades:read!user=alice".toList) =
      .ok ⟨["custom".toList, "grades".toList, "read".toList],
        some (.named .user "alice".toList)⟩ ∧
    serializeScope ⟨["custom".toList, "grades".toList, "read".toList],
        some (.named .user "alice".toList)⟩ =
      "custom:grades:read!user=alice".toList :=
  ⟨by decide, claim5_roundtrip _ _ (by decide)⟩

/-- C6: for every scope set `S`, `expand (expand S) = expand S` (the closure
under the implication relation is idempotent), and every scope in
`expand S` carries the resource filter of an original scope of `S` that
implies it (a filtered grant implies only same-filtered scopes, an
unfiltered grant implies unfiltered scopes). -/
theorem claim6_expand_idempotent (g : ScopeGraph) (S : Finset Scope) :
    expand g (expand g S) = expand g S ∧
    ∀ t ∈ expand g S, ∃ s ∈ S, t.filter = s.filter ∧
      Relation.ReflTransGen (edgeRel g) s.path t.path := by
  constructor
  · ext t
    rw [mem_expand_iff, mem_expand_iff]
    constructor
    · rintro ⟨u, hu, hru, hfu⟩
      rw [mem_expand_iff] at hu
      obtain ⟨s, hs, hrs, hfs⟩ := hu
      exact ⟨s, hs, hrs.trans hru, by rw [hfu, hfs]⟩
    · rintro ⟨s, hs, hrs, hfs⟩
      have ht : t ∈ expand g S := (mem_expand_iff g S t).mpr ⟨s, hs, hrs, hfs⟩
      exact ⟨t, ht, Relation.ReflTransGen.refl, rfl⟩
  · intro t ht
    rw [mem_expand_iff] at ht
    obtain ⟨s, hs, hr, hf⟩ := ht
    exact ⟨s, hs, hf, hr⟩

theorem claim6_witness :
    ∃ s ∈ ({⟨["w"], ResourceFilter.unfiltered⟩} : Finset Scope),
      (⟨["r"], ResourceFilter.unfiltered⟩ : Scope).filter = s.filter ∧
      Relation.ReflTransGen (edgeRel [(["w"], [["r"]])]) s.path ["r"] :=
  (claim6_expand_idempotent [(["w"], [["r"]])]
      {⟨["w"], ResourceFilter.unfiltered⟩}).2
    ⟨["r"], ResourceFilter.unfiltered⟩ (by decide)

/-- C9: `ServerPollStatus.from_status status` returns `running` iff
`status` is `None`, and `stopped` for every other value; as a total
function it never raises. -/
theorem claim9_from_status (α : Type) (status : Option α) :
    (ServerPollStatus.from_status status = .running ↔ status = none) ∧
    (ServerPollStatus.from_status status = .stopped ↔ status ≠ none) := by
  cases status <;> simp [ServerPollStatus.from_status]

theorem claim9_witness :
    ServerPollStatus.from_status (some 0) = .stopped :=
  (claim9_from_status ℕ (some 0)).2.mpr (by simp)

/-- C1: if scope `A` implies path `B` directly or transitively through the
implication edges (reflexive-transitive closure covers the degenerate
`B = A.path` case), then every subject whose resolved raw scope set is
exactly `{A}` is allowed by `authorize subject [B] r` for every resource `r`
covered by `A`'s resource filter. -/
theorem claim1_implied_scope_authorized (g : ScopeGraph) (table : List Role)
    (subj : Subject) (A : Scope) (B : SPath) (r : ResourceRef)
    (hraw : (resolve table subj).scopes = {A})
    (himp : Relation.ReflTransGen (edgeRel g) A.path B)
    (hcov : filterMatches A.filter r subj = true) :
    (authorize g table subj [B] r).allowed = true := by
  have hmem : (⟨B, A.filter⟩ : Scope) ∈ effective_scopes g table subj := by
    rw [effective_scopes, hraw]
    exact (mem_expand_iff g {A} ⟨B, A.filter⟩).mpr
      ⟨A, Finset.mem_singleton_self A, himp, rfl⟩
  have hex : ∃ rp ∈ [B], ∃ sc ∈ effective_scopes g table subj,
      pathCovers sc.path rp = true ∧ filterMatches sc.filter r subj = true :=
    ⟨B, by simp, ⟨B, A.filter⟩, hmem, by simp [pathCovers], hcov⟩
  rw [authorize]
  rw [if_pos hex]

theorem claim1_witness :
    (authorize [(["custom","grades","write"], [["custom","grades","read"]])]
        [⟨"graders", [⟨["custom","grades","write"], .unfiltered⟩], none⟩]
        (.user "grader-1" [] ["graders"])
        [["custom","grades","read"]] ⟨.service, "grades"⟩).allowed = true ∧
    (authorize [(["custom","grades","write"], [["custom","grades","read"]])]
        [⟨"graders", [⟨["custom","grades","write"], .unfiltered⟩], none⟩]
        (.user "grader-1" [] ["graders"])
        [["custom","grades","write"]] ⟨.service, "grades"⟩).allowed = true :=
  ⟨claim1_implied_scope_authorized _ _ _
      ⟨["custom","grades","write"], .unfiltered⟩ _ _ (by decide)
      (Relation.ReflTransGen.single (by decide)) (by decide),
    claim1_implied_scope_authorized _ _ _
      ⟨["custom","grades","write"], .unfiltered⟩ _ _ (by decide)
      Relation.ReflTransGen.refl (by decide)⟩

/-- C7: an `authorize` call is allowed iff some required-scope alternative
is covered by a scope of the expanded set in both namespace and filter;
when denied, the reason is `resource_filter_mismatch` exactly when at least
one scope of the expanded set matched a required namespace (but none also
passed the filter), and `no_matching_scope` exactly when no namespace
matched at all. -/
theorem claim7_denial_reason (g : ScopeGraph) (table : List Role)
    (subj : Subject) (required : List SPath) (res : ResourceRef) :
    ((authorize g table subj required res).allowed = true ↔
      ∃ rp ∈ required, ∃ sc ∈ effective_scopes g table subj,
        pathCovers sc.path rp = true ∧ filterMatches sc.filter res subj = true) ∧
    ((authorize g table subj required res).reason =
        some .resource_filter_mismatch ↔
      ((authorize g table subj required res).allowed = false ∧
        ∃ rp ∈ required, ∃ sc ∈ effective_scopes g table subj,
          pathCovers sc.path rp = true)) ∧
    ((authorize g table subj required res).reason = some .no_matching_scope ↔
      ¬ ∃ rp ∈ required, ∃ sc ∈ effective_scopes g table subj,
          pathCovers sc.path rp = true) := by
  rw [authorize]
  split_ifs with h1 h2
  · have h1' : ∃ rp ∈ required, ∃ sc ∈ effective_scopes g table subj,
        pathCovers sc.path rp = true := by
      obtain ⟨rp, hrp, sc, hsc, hpc, _⟩ := h1
      exact ⟨rp, hrp, sc, hsc, hpc⟩
    exact ⟨by simp [h1], by simp, by simp [h1']⟩
  · exact ⟨by simp [h1], by simp [h2], by simp [h2]⟩
  · exact ⟨by simp [h1], by simp [h2], by simp [h2]⟩

theorem claim7_witness :
    (authorize [] [] (.user "student-1" [] [])
      [["custom","grades","read"]] ⟨.user, "student-1"⟩).reason =
      some DenialReason.no_matching_scope :=
  (claim7_denial_reason [] [] (.user "student-1" [] [])
    [["custom","grades","read"]] ⟨.user, "student-1"⟩).2.2.mpr (by decide)

theorem filterMap_filter_of_none {α β : Type} (f : α → Option β)
    (p : α → Bool) (l : List α)
    (h : ∀ x ∈ l, p x = false → f x = none) :
    (l.filter p).filterMap f = l.filterMap f := by
  induction l with
  | nil => rfl
  | cons a l ih =>
    have ih' := ih (fun x hx => h x (List.mem_cons_of_mem a hx))
    rw [List.filter_cons]
    by_cases hp : p a = true
    · rw [if_pos hp, List.filterMap_cons, List.filterMap_cons, ih']
    · rw [if_neg hp, List.filterMap_cons,
        h a (List.mem_cons_self a l) (Bool.not_eq_true _ ▸ hp), ih']

/-- C8: when a subject's bound-role names include a name absent from the
role table, resolution reports that name among the unbound roles (never
silently ignored) and still produces the scope set of the remaining roles —
the missing role contributes no scopes, the request is not crashed. -/
theorem claim8_unbound_role (table : List Role) (subj : Subject) (n : String)
    (hmem : n ∈ subj.roleNames) (habs : lookupRole table n = none) :
    n ∈ (resolve table subj).unboundRoles ∧
    (resolve table subj).scopes =
      (resolve table (subj.withRoleNames
        (subj.roleNames.filter (fun m => decide (m ≠ n))))).scopes := by
  have hg : ∀ rs : List String,
      ((rs.filter (fun m => decide (m ≠ n))).filterMap (lookupRole table)) =
        rs.filterMap (lookupRole table) := by
    intro rs
    apply filterMap_filter_of_none
    intro x _ hx
    have : x = n := by
      by_contra hc
      simp [hc] at hx
    rw [this, habs]
  constructor
  · show n ∈ subj.roleNames.filter (fun m => (lookupRole table m).isNone)
    rw [List.mem_filter]
    exact ⟨hmem, by rw [habs]; rfl⟩
  · cases subj with
    | user nm srv rs =>
        show ((rs.filterMap (lookupRole table)).flatMap qualifyScopes).toFinset =
          (((rs.filter (fun m => decide (m ≠ n))).filterMap
            (lookupRole table)).flatMap qualifyScopes).toFinset
        rw [hg rs]
    | service nm rs =>
        show ((rs.filterMap (lookupRole table)).flatMap qualifyScopes).toFinset =
          (((rs.filter (fun m => decide (m ≠ n))).filterMap
            (lookupRole table)).flatMap qualifyScopes).toFinset
        rw [hg rs]
    | serverToken ow srv rs al =>
        show ((rs.filterMap (lookupRole table)).flatMap
            qualifyScopes).toFinset ∩ al.toFinset =
          (((rs.filter (fun m => decide (m ≠ n))).filterMap
            (lookupRole table)).flatMap qualifyScopes).toFinset ∩ al.toFinset
        rw [hg rs]

theorem claim8_witness :
    "ghost" ∈ (resolve [⟨"real", [⟨["a"], .unfiltered⟩], none⟩]
      (.user "u" [] ["real", "ghost"])).unboundRoles ∧
    (resolve [⟨"real", [⟨["a"], .unfiltered⟩], none⟩]
      (.user "u" [] ["real", "ghost"])).scopes =
    (resolve [⟨"real", [⟨["a"], .unfiltered⟩], none⟩]
      ((Subject.user "u" [] ["real", "ghost"]).withRoleNames
        ((Subject.user "u" [] ["real", "ghost"]).roleNames.filter
          (fun m => decide (m ≠ "ghost"))))).scopes :=
  claim8_unbound_role [⟨"real", [⟨["a"], .unfiltered⟩], none⟩]
    (.user "u" [] ["real", "ghost"]) "ghost" (by decide) (by decide)

/-- C2 counterexample: a server-token whose owner's allow-list is the single
scope `w` (which implies `r` through the registered implication edge) is
allowed the scope `r` even though `r` is not in the allow-list — because the
resolver intersects raw scopes with the allow-list *before* expansion, the
implied scope `r` survives.  This makes the claim false as stated. -/
theorem claim2_counterexample :
    (⟨["r"], ResourceFilter.unfiltered⟩ : Scope) ∉
      ([⟨["w"], ResourceFilter.unfiltered⟩] : List Scope) ∧
    (authorize [(["w"], [["r"]])]
      [⟨"role1", [⟨["w"], ResourceFilter.unfiltered⟩], none⟩]
      (.serverToken "alice" "srv" ["role1"]
        [⟨["w"], ResourceFilter.unfiltered⟩])
      [["r"]] ⟨.user, "x"⟩).allowed = true := by
  constructor
  · decide
  · decide

/-- C2 (amended): for every server-token subject the resolver intersects the
token's raw scopes with the owner's configured allow-list, so the token's
effective scope set never exceeds the *expansion* of the allow-list; and
whenever no scope in the expansion of the allow-list covers a requested
scope and resource (namespace and filter), the token is denied — even if a
bound role would otherwise grant it. -/
theorem claim2_allowlist_bound (g : ScopeGraph) (table : List Role)
    (owner srv : String) (rl : List String) (allow : List Scope)
    (required : List SPath) (res : ResourceRef) :
    effective_scopes g table (.serverToken owner srv rl allow) ⊆
      expand g allow.toFinset ∧
    ((∀ sc ∈ expand g allow.toFinset, ∀ rp ∈ required,
        ¬(pathCovers sc.path rp = true ∧
          filterMatches sc.filter res (.serverToken owner srv rl allow) = true)) →
      (authorize g table (.serverToken owner srv rl allow) required res).allowed
        = false) := by
  have hsub : effective_scopes g table (.serverToken owner srv rl allow) ⊆
      expand g allow.toFinset := by
    rw [effective_scopes]
    apply expand_mono
    show (((rl.filterMap (lookupRole table)).flatMap qualifyScopes).toFinset ∩
      allow.toFinset) ⊆ allow.toFinset
    exact Finset.inter_subset_right
  refine ⟨hsub, ?_⟩
  intro h
  have hneg : ¬ ∃ rp ∈ required,
      ∃ sc ∈ effective_scopes g table (.serverToken owner srv rl allow),
        pathCovers sc.path rp = true ∧
        filterMatches sc.filter res (.serverToken owner srv rl allow) = true := by
    rintro ⟨rp, hrp, sc, hsc, hpc, hfm⟩
    exact h sc (hsub hsc) rp hrp ⟨hpc, hfm⟩
  rw [authorize]
  rw [if_neg hneg]
  split_ifs <;> rfl

theorem claim2_witness :
    (authorize [(["w"], [["r"]])]
      [⟨"role1", [⟨["w"], ResourceFilter.unfiltered⟩], none⟩]
      (.serverToken "alice" "srv" ["role1"]
        [⟨["w"], ResourceFilter.unfiltered⟩])
      [["z"]] ⟨.user, "x"⟩).allowed = false :=
  (claim2_allowlist_bound [(["w"], [["r"]])]
    [⟨"role1", [⟨["w"], ResourceFilter.unfiltered⟩], none⟩]
    "alice" "srv" ["role1"] [⟨["w"], ResourceFilter.unfiltered⟩]
    [["z"]] ⟨.user, "x"⟩).2 (by decide)

/-- C3: a self-referential filter (`!user` or `!server`) matches exactly
when the requested resource is owned by, or equal to, the subject's own
identity; in particular a server-token holding a `!server`-filtered scope
for its issuing server `X` is denied, with reason
`resource_filter_mismatch`, when the requested resource is a different
server `Y` (even one owned by the same user). -/
theorem claim3_selfref_filter :
    (∀ (subj : Subject) (res : ResourceRef) (k : ResourceKind),
      k = ResourceKind.user ∨ k = ResourceKind.server →
      (filterMatches (.selfRef k) res subj = true ↔ OwnsOrIs subj res k)) ∧
    (∀ (g : ScopeGraph) (table : List Role) (owner X Y : String)
      (rl : List String) (allow : List Scope) (p : SPath),
      (resolve table (.serverToken owner X rl allow)).scopes =
        {⟨p, .selfRef .server⟩} →
      Y ≠ X →
      authorize g table (.serverToken owner X rl allow) [p] ⟨.server, Y⟩ =
        ⟨false, some .resource_filter_mismatch⟩) := by
  constructor
  · intro subj res k hk
    rcases hk with hk | hk <;> subst hk <;>
      simp [filterMatches, OwnsOrIs]
  · intro g table owner X Y rl allow p hres hXY
    have heff : ∀ t ∈ effective_scopes g table (.serverToken owner X rl allow),
        t.filter = ResourceFilter.selfRef .server := by
      intro t ht
      rw [effective_scopes, hres] at ht
      obtain ⟨s, hs, _, hf⟩ := (mem_expand_iff g _ t).mp ht
      rw [Finset.mem_singleton] at hs
      subst hs
      exact hf
    have hmem : (⟨p, ResourceFilter.selfRef .server⟩ : Scope) ∈
        effective_scopes g table (.serverToken owner X rl allow) := by
      rw [effective_scopes, hres]
      exact subset_expand g _ (Finset.mem_singleton_self _)
    have hno : ¬ ∃ rp ∈ [p],
        ∃ sc ∈ effective_scopes g table (.serverToken owner X rl allow),
          pathCovers sc.path rp = true ∧
          filterMatches sc.filter ⟨.server, Y⟩
            (.serverToken owner X rl allow) = true := by
      rintro ⟨rp, hrp, sc, hsc, hpc, hfm⟩
      rw [heff sc hsc] at hfm
      simp [filterMatches, Subject.ownedServers] at hfm
      exact hXY hfm
    have hyes : ∃ rp ∈ [p],
        ∃ sc ∈ effective_scopes g table (.serverToken owner X rl allow),
          pathCovers sc.path rp = true :=
      ⟨p, by simp, ⟨p, ResourceFilter.selfRef .server⟩, hmem,
        by simp [pathCovers]⟩
    rw [authorize]
    rw [if_neg hno, if_pos hyes]

theorem claim3_witness :
    authorize [] [⟨"user", [⟨["execute"], ResourceFilter.selfRef .server⟩], none⟩]
      (.serverToken "alice" "sX" ["user"]
        [⟨["execute"], ResourceFilter.selfRef .server⟩])
      [["execute"]] ⟨.server, "sY"⟩ =
      ⟨false, some DenialReason.resource_filter_mismatch⟩ :=
  claim3_selfref_filter.2 []
    [⟨"user", [⟨["execute"], ResourceFilter.selfRef .server⟩], none⟩]
    "alice" "sX" "sY" ["user"]
    [⟨["execute"], ResourceFilter.selfRef .server⟩] ["execute"]
    (by decide) (by decide)

/-- C10 counterexample: `start = 15` is not a power of ten, yet
`_prometheus_log_scale 15 100` does not raise — the source's check only
looks at the first character of the scientific notation
(`"1.500000e+01"[0] == "1"`), so any value whose formatted mantissa has
leading digit 1 passes.  This makes the claim false as stated. -/
theorem claim10_counterexample :
    ¬ IsPowerOfTen 15 ∧
    prometheus_log_scale 15 100 true =
      .ok [PromValue.val 15, PromValue.val (75/2), PromValue.val 75,
        PromValue.val (225/2), PromValue.val 150, PromValue.inf] := by
  constructor
  · rintro ⟨k, hk⟩
    have h10 : (1:ℚ) < 10 := by norm_num
    have hk1 : (1:ℤ) < k := by
      have : (10:ℚ) ^ (1:ℤ) < 10 ^ k := by
        rw [zpow_one, ← hk]
        norm_num
      exact (zpow_lt_zpow_iff_right₀ h10).mp this
    have hk2 : k < 2 := by
      have : (10:ℚ) ^ k < 10 ^ (2:ℤ) := by
        rw [← hk]
        norm_num
      exact (zpow_lt_zpow_iff_right₀ h10).mp this
    omega
  · have hl : leadExp (15:ℚ) = 1 :=
      leadExp_eq_of (by norm_num) (by norm_num) (by norm_num)
    have hm : sciMant 15 = 1500000 := by
      rw [sciMant, hl]
      rw [show (15:ℚ) * (10:ℚ) ^ ((6:ℤ) - 1) = (((1500000:ℤ)):ℚ) by norm_num]
      rw [round_intCast]
    have hsci : sciFirstDigitOne 15 = true := by
      rw [sciFirstDigitOne, if_pos (by norm_num : (0:ℚ) < 15), hm]
      norm_num
    rw [prometheus_log_scale, if_pos hsci]
    rw [logScaleLoop, dif_pos (show (0:ℚ) < 15 ∧ (15:ℚ) < 100 by norm_num)]
    rw [logScaleLoop, dif_neg
      (show ¬((0:ℚ) < 15 * 10 ∧ (15 * 10 : ℚ) < 100) by norm_num)]
    norm_num

/-- C10 (amended): `_prometheus_log_scale start end` raises `ValueError`
before yielding any value exactly when the first character of
`f"{start:e}"` is not the digit 1: for every `start ≤ 0`, and for every
positive `start` whose mantissa, rounded to six decimal places as the
format does, has a first digit of 2 through 9 — with decimal exponent `E`
(`10^E ≤ start < 10^(E+1)`), `2*10^6 ≤ round(start * 10^(6-E)) < 10^7`.
Values whose formatted mantissa begins with the digit 1 are accepted even
though they need not be powers of ten (e.g. 15, 1.5, or 9.9999999, which
rounds up to `1.000000e+01`).  For every start that is a power of ten with
`start < end`, the generator yields a finite strictly increasing sequence
beginning with `start`, whose last finite element is the smallest
power-of-ten multiple of `start` reached by repeated multiplication by 10
that is `≥ end`, followed by infinity when `include_inf` is true. -/
theorem claim10_log_scale_amended :
    (∀ (start e : ℚ) (inc : Bool), start ≤ 0 →
      prometheus_log_scale start e inc =
        .error "start must be a power of 10 (1eN)") ∧
    (∀ (start e : ℚ) (inc : Bool) (E : ℤ),
      (10:ℚ) ^ E ≤ start → start < 10 ^ (E + 1) →
      2 * 10 ^ 6 ≤ round (start * (10:ℚ) ^ ((6:ℤ) - E)) →
      round (start * (10:ℚ) ^ ((6:ℤ) - E)) < 10 ^ 7 →
      prometheus_log_scale start e inc =
        .error "start must be a power of 10 (1eN)") ∧
    (∀ (k : ℤ) (e : ℚ) (inc : Bool), (10:ℚ) ^ k < e →
      prometheus_log_scale ((10:ℚ) ^ k) e inc =
        .ok ((logScaleLoop e ((10:ℚ) ^ k)).map PromValue.val ++
          if inc then [PromValue.inf] else []) ∧
      (logScaleLoop e ((10:ℚ) ^ k)).head? = some ((10:ℚ) ^ k) ∧
      (logScaleLoop e ((10:ℚ) ^ k)).Chain' (· < ·) ∧
      ∃ n : ℕ, (logScaleLoop e ((10:ℚ) ^ k)).getLast? =
          some ((10:ℚ) ^ k * 10 ^ n) ∧
        e ≤ (10:ℚ) ^ k * 10 ^ n ∧
        ∀ m : ℕ, e ≤ (10:ℚ) ^ k * 10 ^ m → n ≤ m) := by
  refine ⟨?_, ?_, ?_⟩
  · intro start e inc hle
    have hb : sciFirstDigitOne start = false := by
      rw [sciFirstDigitOne, if_neg (not_lt.mpr hle)]
    rw [prometheus_log_scale, if_neg (by rw [hb]; exact Bool.false_ne_true)]
  · intro start e inc E hlo hhi h2 h7
    have hq : 0 < start := lt_of_lt_of_le (zpow_pos (by norm_num) E) hlo
    have hb := sciFirstDigitOne_false_of_digit hq hlo hhi h2 h7
    rw [prometheus_log_scale, if_neg (by rw [hb]; exact Bool.false_ne_true)]
  · intro k e inc hlt
    have hpos : (0:ℚ) < 10 ^ k := zpow_pos (by norm_num) k
    refine ⟨?_, logScaleLoop_head e _, logScaleLoop_chain e _ hpos,
      tenIterBound e ((10:ℚ) ^ k), logScaleLoop_getLast e _ hpos,
      tenIterBound_spec e _ hpos, fun m hm => tenIterBound_min e _ hpos hm⟩
    rw [prometheus_log_scale, if_pos (sciFirstDigitOne_pow k)]

theorem claim10_witness :
    prometheus_log_scale 3 10 true =
      .error "start must be a power of 10 (1eN)" ∧
    prometheus_log_scale ((10:ℚ) ^ (0:ℤ)) 10 true =
      .ok ((logScaleLoop 10 ((10:ℚ) ^ (0:ℤ))).map PromValue.val ++
        [PromValue.inf]) :=
  ⟨claim10_log_scale_amended.2.1 3 10 true 0
    (by norm_num) (by norm_num)
    (by
      rw [show (3:ℚ) * (10:ℚ) ^ ((6:ℤ) - 0) = (((3000000:ℤ)):ℚ) by norm_num]
      rw [round_intCast]
      norm_num)
    (by
      rw [show (3:ℚ) * (10:ℚ) ^ ((6:ℤ) - 0) = (((3000000:ℤ)):ℚ) by norm_num]
      rw [round_intCast]
      norm_num),
   (claim10_log_scale_amended.2.2 0 10 true (by rw [zpow_zero]; norm_num)).1⟩

end JupyterHub
